import Mathlib

/-!
Shallow embedding of the HTTP/1.1 message codec in `src/lib.rs`.

Text is modeled as `List Char` (Rust `str` / `String`); the byte buffer
handed to `Message::parse` is modeled as the character sequence it decodes
to, so the leading `String::from_utf8` validity check is not modeled (no
claim concerns invalid encodings).  Rust `Option`-propagation with `?`
inside the `try` block maps to `PResult.fail` (which `parse` turns into the
`Malformed` error), while a Rust panic (`unwrap` on a failed integer parse)
maps to `PResult.panic`.
-/

/-- Outcome of a fallible Rust computation: `ok`, an error propagated with
`?` (ultimately surfaced as `Error::Malformed`), or a panic. -/
inductive PResult (α : Type) where
  | ok (a : α)
  | fail
  | panic
  deriving DecidableEq

/-- Rust `char::is_whitespace`: the Unicode White_Space code points. -/
def isRustWhitespace (c : Char) : Bool :=
  c == ' ' || c == '\t' || c == '\n' || c == '\x0B' || c == '\x0C' || c == '\r' ||
  c == '\u0085' || c == ' ' || c == ' ' ||
  c == ' ' || c == ' ' || c == ' ' || c == ' ' || c == ' ' ||
  c == ' ' || c == ' ' || c == ' ' || c == ' ' || c == ' ' ||
  c == ' ' || c == ' ' || c == ' ' || c == ' ' || c == ' ' ||
  c == '　'

/-- Rust `str::trim_start`: drop leading whitespace. -/
def trimStart (s : List Char) : List Char := s.dropWhile isRustWhitespace

/-- Rust `str::strip_suffix('\r')` as used by `str::lines`: remove one
trailing carriage return if present. -/
def stripCR : List Char → List Char
  | [] => []
  | [c] => if c = '\r' then [] else [c]
  | c :: c2 :: rest => c :: stripCR (c2 :: rest)

/-- Worker for `rlines`; `cur` holds the current line, reversed. -/
def rlinesAux (cur : List Char) : List Char → List (List Char)
  | [] => if cur = [] then [] else [cur.reverse]
  | c :: rest =>
    if c = '\n' then stripCR cur.reverse :: rlinesAux [] rest
    else rlinesAux (c :: cur) rest

/-- Rust `str::lines`: split at `\n`, additionally removing a `\r` that
immediately precedes a `\n`; the final line terminator is optional and a
trailing `\r` not followed by `\n` is kept. -/
def rlines (s : List Char) : List (List Char) := rlinesAux [] s

/-- Worker for `splitWhitespace`; `cur` holds the current token, reversed. -/
def splitWSAux (cur : List Char) : List Char → List (List Char)
  | [] => if cur = [] then [] else [cur.reverse]
  | c :: rest =>
    if isRustWhitespace c then
      if cur = [] then splitWSAux [] rest else cur.reverse :: splitWSAux [] rest
    else splitWSAux (c :: cur) rest

/-- Rust `str::split_whitespace`: whitespace-separated tokens, empty tokens
discarded. -/
def splitWhitespace (s : List Char) : List (List Char) := splitWSAux [] s

/-- Worker for `splitSub`.  `skip` counts separator characters still to be
consumed after a match; `cur` holds the current fragment, reversed. -/
def splitSubAux (c0 : Char) (sep : List Char) : Nat → List Char → List Char → List (List Char)
  | _, cur, [] => [cur.reverse]
  | Nat.succ n, cur, _ :: rest => splitSubAux c0 sep n cur rest
  | 0, cur, c :: rest =>
    if List.isPrefixOf (c0 :: sep) (c :: rest) then
      cur.reverse :: splitSubAux c0 sep sep.length [] rest
    else
      splitSubAux c0 sep 0 (c :: cur) rest

/-- Rust `str::split` with a (nonempty) string pattern: fragments between
leftmost non-overlapping occurrences of `sep`. -/
def splitSub (sep s : List Char) : List (List Char) :=
  match sep with
  | [] => [s]
  | c0 :: sepRest => splitSubAux c0 sepRest 0 [] s

/-- Decimal digit, i.e. the characters accepted by Rust integer parsing. -/
def isDigitChar (c : Char) : Bool := 48 ≤ c.toNat && c.toNat ≤ 57

/-- Numeric value of a decimal digit string (most significant first). -/
def digitsVal (ds : List Char) : Nat := ds.foldl (fun a c => a * 10 + (c.toNat - 48)) 0

/-- Rust `FromStr` for unsigned integers with exclusive bound `bound`
(`256` for `u8`, `2 ^ 64` for 64-bit `usize`): an optional leading `+`,
then at least one decimal digit, and the value must be below the bound. -/
def rustParseNat (bound : Nat) (s : List Char) : Option Nat :=
  let ds := match s with
    | '+' :: rest => rest
    | _ => s
  if ds = [] then none
  else if ds.all isDigitChar then
    if digitsVal ds < bound then some (digitsVal ds) else none
  else none

/-- Rust `str::parse::<u8>()`. -/
def parseU8 (s : List Char) : Option Nat := rustParseNat 256 s

/-- Rust `str::parse::<usize>()` (64-bit). -/
def parseUsize (s : List Char) : Option Nat := rustParseNat (2 ^ 64) s

/-- Worker for `natRepr`, with fuel (any fuel above the value works). -/
def natReprAux : Nat → Nat → List Char
  | 0, _ => []
  | fuel + 1, n =>
    if n < 10 then [Nat.digitChar n]
    else natReprAux fuel (n / 10) ++ [Nat.digitChar (n % 10)]

/-- Decimal rendering of an unsigned integer, as Rust `Display` for `u8`
and `usize` produces it. -/
def natRepr (n : Nat) : List Char := natReprAux (n + 1) n

/-- Rust `char::to_ascii_lowercase` (as applied bytewise by
`str::to_ascii_lowercase`). -/
def asciiLower (c : Char) : Char :=
  if 65 ≤ c.toNat && c.toNat ≤ 90 then Char.ofNat (c.toNat + 32) else c

/-- `enum Method` from `src/lib.rs`. -/
inductive Method where
  | get | head | post | put | delete | connect | options | trace | patch
  deriving DecidableEq

/-- `impl TryFrom<&str> for Method`: lowercase the token, then match it
against the nine method names; anything else is `Error::Malformed`
(modeled as `none`). -/
def methodTryFrom (s : List Char) : Option Method :=
  let low := s.map asciiLower
  if low = "get".toList then some .get
  else if low = "head".toList then some .head
  else if low = "post".toList then some .post
  else if low = "put".toList then some .put
  else if low = "delete".toList then some .delete
  else if low = "connect".toList then some .connect
  else if low = "options".toList then some .options
  else if low = "trace".toList then some .trace
  else if low = "patch".toList then some .patch
  else none

/-- `impl Display for Method`: the debug name, ASCII-uppercased. -/
def methodDisplay : Method → List Char
  | .get => "GET".toList
  | .head => "HEAD".toList
  | .post => "POST".toList
  | .put => "PUT".toList
  | .delete => "DELETE".toList
  | .connect => "CONNECT".toList
  | .options => "OPTIONS".toList
  | .trace => "TRACE".toList
  | .patch => "PATCH".toList

/-- `struct Version { major: u8, minor: u8 }`; the `u8` range is carried as
side conditions where it matters. -/
structure Version where
  major : Nat
  minor : Nat
  deriving DecidableEq

/-- `impl Display for Version`: `"{major}.{minor}"`. -/
def versionText (v : Version) : List Char := natRepr v.major ++ '.' :: natRepr v.minor

/-- `enum Code`; only `Success = 200` exists. -/
inductive Code where
  | success
  deriving DecidableEq

/-- `u16::from(code)`. -/
def codeNum : Code → Nat
  | .success => 200

/-- `impl Display for Code` (the debug name). -/
def codeName : Code → List Char
  | .success => "Success".toList

/-- `struct Header { name: String, value: String }`. -/
structure Header where
  name : List Char
  value : List Char
  deriving DecidableEq

/-- `enum Frame`. -/
inductive Frame where
  | headers (headers : List Header)
  | data (payload : List Char)
  deriving DecidableEq

/-- `enum Message`. -/
inductive Message where
  | request (method : Method) (target : List Char) (version : Version) (frames : List Frame)
  | response (version : Version) (code : Code) (frames : List Frame)
  deriving DecidableEq

/-- The `frames` field, extracted as in `Message::into_bytes`. -/
def Message.frames : Message → List Frame
  | .request _ _ _ fs => fs
  | .response _ _ fs => fs

/-- One serialized header line: `format!("{}: {}\r\n", name, value)`. -/
def headerLineText (h : Header) : List Char :=
  h.name ++ ':' :: ' ' :: h.value ++ ['\r', '\n']

/-- One step of the frame loop in `Message::into_bytes`: a `Headers` frame
appends its lines to the textual part, a `Data` frame appends its bytes to
the payload part. -/
def frameFold (acc : List Char × List Char) (f : Frame) : List Char × List Char :=
  match f with
  | .headers hs => (acc.1 ++ (hs.map headerLineText).flatten, acc.2)
  | .data p => (acc.1, acc.2 ++ p)

/-- The `begin` string of `Message::into_bytes`: the start line including
its `\r\n`. -/
def startLine : Message → List Char
  | .request mth tgt ver _ =>
    methodDisplay mth ++ ' ' :: tgt ++ ' ' :: "HTTP/".toList ++ versionText ver ++ ['\r', '\n']
  | .response ver code _ =>
    "HTTP/".toList ++ versionText ver ++ ' ' :: natRepr (codeNum code) ++ ' ' :: codeName code
      ++ ['\r', '\n']

/-- `Message::into_bytes`: start line, then the frame loop accumulating
header text and payload separately, then `info ++ "\r\n" ++ payload`. -/
def Message.into_bytes (m : Message) : List Char :=
  let ip := m.frames.foldl frameFold (startLine m, [])
  ip.1 ++ '\r' :: '\n' :: ip.2

/-- The name scanned for by the body-extraction step of `Message::parse`. -/
def clChars : List Char := "Content-Length".toList

/-- The header lines collected by the `while let` loop of `Message::parse`:
the lines after the status line, up to the first empty line. -/
def headerLinesOf (ls : List (List Char)) : List (List Char) :=
  (ls.drop 1).takeWhile (fun l => !l.isEmpty)

/-- What the exhausted cursor of `Message::parse` collects after the header
loop: the loop consumed the status line, the header lines and the blank
line, and `collect::<String>()` concatenates the remaining lines, dropping
their line terminators. -/
def restOf (ls : List (List Char)) : List Char :=
  ((((ls.drop 1).dropWhile (fun x => !x.isEmpty)).drop 1).flatten)

/-- Removal of line terminators (`\r\n` or bare `\n`): the net effect on
the remaining input of collecting the exhausted line cursor.  A `\r` not
directly followed by `\n` is not a terminator and is kept. -/
def stripTerms : List Char → List Char
  | [] => []
  | [c] => if c = '\n' then [] else [c]
  | c :: c2 :: rest =>
    if c = '\r' ∧ c2 = '\n' then stripTerms rest
    else if c = '\n' then stripTerms (c2 :: rest)
    else c :: stripTerms (c2 :: rest)

/-- `Message::parse_status_line`: whitespace-tokenize, convert the method,
take the target verbatim, then extract `major` and `minor` from the third
token by splitting on `"HTTP/"` and `"."`.  The two `parse::<u8>()`
results are `unwrap`ped, so a failed integer parse panics. -/
def Message.parse_status_line (info : List Char) :
    PResult (Method × List Char × Version) :=
  let dat := splitWhitespace info
  match dat.get? 0 with
  | none => .fail
  | some m0 =>
    match methodTryFrom m0 with
    | none => .fail
    | some method =>
      match dat.get? 1 with
      | none => .fail
      | some target =>
        match dat.get? 2 with
        | none => .fail
        | some vtok =>
          match (splitSub "HTTP/".toList vtok).get? 1 with
          | none => .fail
          | some afterSlash =>
            match (splitSub ['.'] afterSlash).get? 0 with
            | none => .fail
            | some majStr =>
              match parseU8 majStr with
              | none => .panic
              | some major =>
                match (splitSub "HTTP/".toList vtok).get? 1 with
                | none => .fail
                | some afterSlash2 =>
                  match (splitSub ['.'] afterSlash2).get? 1 with
                  | none => .fail
                  | some minStr =>
                    match parseU8 minStr with
                    | none => .panic
                    | some minor => .ok (method, target, ⟨major, minor⟩)

/-- The loop body of `Message::parse_headers`: name is
`line.split(":").take(1).collect()`, value is
`line.split(":").skip(1).collect()` with leading whitespace trimmed;
an empty name or value rejects the line. -/
def parseHeaderLine (line : List Char) : Option Header :=
  let segs := splitSub [':'] line
  let name := (segs.take 1).flatten
  let value := trimStart (segs.drop 1).flatten
  if name = [] ∨ value = [] then none else some ⟨name, value⟩

/-- The loop of `Message::parse_headers`: parse each line in order,
aborting on the first bad one. -/
def parseHeaderLines : List (List Char) → Option (List Header)
  | [] => some []
  | l :: rest =>
    match parseHeaderLine l with
    | none => none
    | some h =>
      match parseHeaderLines rest with
      | none => none
      | some hs => some (h :: hs)

/-- `Message::parse_headers`: split the accumulated header text back into
lines and parse each. -/
def Message.parse_headers (info : List Char) : Option (List Header) :=
  parseHeaderLines (rlines info)

/-- `Message::parse`: empty-input check, status line, the header-collecting
loop (lines up to the first blank line, rejoined with `\r\n`), the scan for
the first `Content-Length` header, and — when one is present — the body:
the remaining lines concatenated (the cursor's `collect::<String>()`,
which drops the line terminators), truncated to the declared length. -/
def Message.parse (buffer : List Char) : PResult Message :=
  if buffer.length = 0 then .fail
  else
    let ls := rlines buffer
    match ls.head? with
    | none => .fail
    | some status_line =>
      match Message.parse_status_line status_line with
      | .panic => .panic
      | .fail => .fail
      | .ok (method, target, version) =>
        let headerStr := ((headerLinesOf ls).map (fun l => l ++ ['\r', '\n'])).flatten
        match Message.parse_headers headerStr with
        | none => .fail
        | some hdrs =>
          match hdrs.find? (fun h => decide (h.name = clChars)) with
          | none => .ok (.request method target version [.headers hdrs])
          | some hd =>
            match parseUsize hd.value with
            | none => .fail
            | some l =>
              .ok (.request method target version
                [.headers hdrs, .data ((restOf ls).take l)])

/-- Specification-side decomposition of the serializer's text part: the
header lines contributed by each frame, in frame order. -/
def headersPart (fs : List Frame) : List Char :=
  (fs.map (fun f => match f with
    | .headers hs => (hs.map headerLineText).flatten
    | .data _ => [])).flatten

/-- Specification-side decomposition of the serializer's payload part: the
data bytes contributed by each frame, in frame order. -/
def payloadPart (fs : List Frame) : List Char :=
  (fs.map (fun f => match f with
    | .headers _ => []
    | .data p => p)).flatten

/-- A serialized header line without its terminator. -/
def headerCore (h : Header) : List Char := h.name ++ ':' :: ' ' :: h.value

/-- The serialized header section of a header list. -/
def headersBlock (hs : List Header) : List Char := (hs.map headerLineText).flatten

/-- A serialized request status line without its terminator. -/
def statusCore (mth : Method) (tgt : List Char) (maj mnr : Nat) : List Char :=
  methodDisplay mth ++ ' ' :: tgt ++ ' ' :: "HTTP/".toList ++ natRepr maj ++ '.' :: natRepr mnr

/-- A wire-format request: status line, header section, blank line, body. -/
def mkInput (mth : Method) (tgt : List Char) (maj mnr : Nat) (hs : List Header)
    (body : List Char) : List Char :=
  statusCore mth tgt maj mnr ++ '\r' :: '\n' :: (headersBlock hs ++ '\r' :: '\n' :: body)

/-- A target token that survives whitespace tokenization of the status
line: nonempty and free of whitespace. -/
def wfTarget (t : List Char) : Prop :=
  t ≠ [] ∧ ∀ c ∈ t, isRustWhitespace c = false

/-- A header name that the colon-splitting header parser reads back
verbatim: nonempty, free of colons and of line-terminator characters. -/
def wfName (n : List Char) : Prop :=
  n ≠ [] ∧ ∀ c ∈ n, c ≠ ':' ∧ c ≠ '\r' ∧ c ≠ '\n'

/-- A header value the parser reads back verbatim: nonempty, free of colons
and line-terminator characters, not starting with whitespace. -/
def wfValue (v : List Char) : Prop :=
  v ≠ [] ∧ (∀ c ∈ v, c ≠ ':' ∧ c ≠ '\r' ∧ c ≠ '\n') ∧
    ∀ c ∈ v.take 1, isRustWhitespace c = false

/-- A header whose serialized line parses back to itself. -/
def wfHeader (h : Header) : Prop := wfName h.name ∧ wfValue h.value

instance (t : List Char) : Decidable (wfTarget t) :=
  inferInstanceAs (Decidable (t ≠ [] ∧ ∀ c ∈ t, isRustWhitespace c = false))

instance (n : List Char) : Decidable (wfName n) :=
  inferInstanceAs (Decidable (n ≠ [] ∧ ∀ c ∈ n, c ≠ ':' ∧ c ≠ '\r' ∧ c ≠ '\n'))

instance (v : List Char) : Decidable (wfValue v) :=
  inferInstanceAs (Decidable (v ≠ [] ∧ (∀ c ∈ v, c ≠ ':' ∧ c ≠ '\r' ∧ c ≠ '\n') ∧
    ∀ c ∈ v.take 1, isRustWhitespace c = false))

instance (h : Header) : Decidable (wfHeader h) :=
  inferInstanceAs (Decidable (wfName h.name ∧ wfValue h.value))

example : rlines "a\r\nb\n\nc\r".toList = ["a".toList, "b".toList, [], "c\r".toList] := by decide
example : stripTerms "a\r\nb\nc\rd\r".toList = "abc\rd\r".toList := by decide

lemma stripCR_append_cr : ∀ l : List Char, stripCR (l ++ ['\r']) = l := by
  intro l
  induction l with
  | nil => simp [stripCR]
  | cons c t ih =>
    cases t with
    | nil => simp [stripCR]
    | cons d t2 =>
      simp only [List.cons_append] at ih ⊢
      rw [stripCR, ih]

lemma mem_stripCR {c : Char} : ∀ {l : List Char}, c ∈ stripCR l → c ∈ l := by
  intro l
  induction l with
  | nil => simp [stripCR]
  | cons d t ih =>
    cases t with
    | nil =>
      simp only [stripCR]
      split <;> simp_all
    | cons e t2 =>
      rw [stripCR]
      intro h
      rcases List.mem_cons.mp h with h | h
      · simp [h]
      · exact List.mem_cons_of_mem _ (ih h)

lemma rlinesAux_append_newline :
    ∀ (l : List Char), (∀ c ∈ l, c ≠ '\n') → ∀ (rest cur : List Char),
      rlinesAux cur (l ++ '\n' :: rest) = stripCR (cur.reverse ++ l) :: rlinesAux [] rest := by
  intro l
  induction l with
  | nil => intro _ rest cur; simp [rlinesAux]
  | cons c t ih =>
    intro hl rest cur
    have hc : c ≠ '\n' := hl c (List.mem_cons_self _ _)
    have ht : ∀ d ∈ t, d ≠ '\n' := fun d hd => hl d (List.mem_cons_of_mem _ hd)
    simp only [List.cons_append, rlinesAux, if_neg hc, List.append_eq]
    rw [ih ht rest (c :: cur)]
    simp [List.append_assoc]

lemma rlinesAux_no_newline :
    ∀ (l : List Char), (∀ c ∈ l, c ≠ '\n') → ∀ (cur : List Char),
      rlinesAux cur l = if cur.reverse ++ l = [] then [] else [cur.reverse ++ l] := by
  intro l
  induction l with
  | nil =>
    intro _ cur
    simp only [rlinesAux, List.append_nil]
    by_cases hc : cur = [] <;> simp [hc]
  | cons c t ih =>
    intro hl cur
    have hc : c ≠ '\n' := hl c (List.mem_cons_self _ _)
    have ht : ∀ d ∈ t, d ≠ '\n' := fun d hd => hl d (List.mem_cons_of_mem _ hd)
    simp only [rlinesAux, if_neg hc]
    rw [ih ht (c :: cur)]
    simp

lemma rlines_crlf (l rest : List Char) (hl : ∀ c ∈ l, c ≠ '\n') :
    rlines (l ++ '\r' :: '\n' :: rest) = l :: rlines rest := by
  have h2 : ∀ c ∈ l ++ ['\r'], c ≠ '\n' := by
    intro c hc
    rcases List.mem_append.mp hc with h | h
    · exact hl c h
    · simp only [List.mem_singleton] at h
      simp [h]
  have e : l ++ '\r' :: '\n' :: rest = (l ++ ['\r']) ++ '\n' :: rest := by simp
  rw [rlines, e, rlinesAux_append_newline _ h2 rest []]
  simp [stripCR_append_cr, rlines]

lemma rlines_no_newline (l : List Char) (hl : ∀ c ∈ l, c ≠ '\n') :
    rlines l = if l = [] then [] else [l] := by
  rw [rlines, rlinesAux_no_newline l hl []]
  simp

lemma rlinesAux_mem :
    ∀ (s cur : List Char), (∀ c ∈ cur, c ≠ '\n') →
      ∀ l ∈ rlinesAux cur s, ∀ c ∈ l, c ≠ '\n' := by
  intro s
  induction s with
  | nil =>
    intro cur hcur l hl
    simp only [rlinesAux] at hl
    split at hl
    · simp at hl
    · simp only [List.mem_singleton] at hl
      subst hl
      intro c hc
      exact hcur c (List.mem_reverse.mp hc)
  | cons c s ih =>
    intro cur hcur l hl
    simp only [rlinesAux] at hl
    split at hl
    · rcases List.mem_cons.mp hl with h | h
      · subst h
        intro d hd
        exact hcur d (List.mem_reverse.mp (mem_stripCR hd))
      · exact ih [] (by simp) l h
    · next hc =>
      exact ih (c :: cur) (by
        intro d hd
        rcases List.mem_cons.mp hd with h | h
        · simp [h, hc]
        · exact hcur d h) l hl

lemma rlines_mem (s : List Char) : ∀ l ∈ rlines s, ∀ c ∈ l, c ≠ '\n' :=
  rlinesAux_mem s [] (by simp)

lemma stripTerms_newline_cons (rest : List Char) :
    stripTerms ('\n' :: rest) = stripTerms rest := by
  cases rest with
  | nil => simp [stripTerms]
  | cons r rs => rw [stripTerms]; simp

lemma stripTerms_of_no_newline :
    ∀ (s : List Char), (∀ c ∈ s, c ≠ '\n') → stripTerms s = s := by
  intro s
  induction s with
  | nil => simp [stripTerms]
  | cons c t ih =>
    intro hs
    have hc : c ≠ '\n' := hs c (List.mem_cons_self _ _)
    have ht : ∀ d ∈ t, d ≠ '\n' := fun d hd => hs d (List.mem_cons_of_mem _ hd)
    cases t with
    | nil => simp [stripTerms, hc]
    | cons c2 t2 =>
      have hc2 : c2 ≠ '\n' := ht c2 (List.mem_cons_self _ _)
      rw [stripTerms, if_neg (by simp [hc2]), if_neg hc, ih ht]

lemma stripTerms_append_newline :
    ∀ (pre : List Char), (∀ c ∈ pre, c ≠ '\n') → ∀ (rest : List Char),
      stripTerms (pre ++ '\n' :: rest) = stripCR pre ++ stripTerms rest := by
  intro pre
  induction pre with
  | nil => intro _ rest; simp [stripCR, stripTerms_newline_cons]
  | cons c t ih =>
    intro hp rest
    have hc : c ≠ '\n' := hp c (List.mem_cons_self _ _)
    have ht : ∀ d ∈ t, d ≠ '\n' := fun d hd => hp d (List.mem_cons_of_mem _ hd)
    cases t with
    | nil =>
      by_cases hr : c = '\r'
      · subst hr
        rw [List.singleton_append, stripTerms, if_pos (by simp)]
        simp [stripCR]
      · rw [List.singleton_append, stripTerms, if_neg (by simp [hr]), if_neg hc,
          stripTerms_newline_cons]
        simp [stripCR, hr]
    | cons c2 t2 =>
      have hc2 : c2 ≠ '\n' := ht c2 (List.mem_cons_self _ _)
      rw [List.cons_append, List.cons_append, stripTerms, if_neg (by simp [hc2]),
        if_neg hc, ← List.cons_append, ih ht rest, stripCR]
      simp

lemma flatten_rlinesAux :
    ∀ (s cur : List Char), (∀ c ∈ cur, c ≠ '\n') →
      (rlinesAux cur s).flatten = stripTerms (cur.reverse ++ s) := by
  intro s
  induction s with
  | nil =>
    intro cur hcur
    have hrev : ∀ c ∈ cur.reverse, c ≠ '\n' := fun c hc => hcur c (List.mem_reverse.mp hc)
    simp only [rlinesAux, List.append_nil]
    split
    · next h => simp [h, stripTerms]
    · simp [stripTerms_of_no_newline _ hrev]
  | cons c s ih =>
    intro cur hcur
    have hrev : ∀ d ∈ cur.reverse, d ≠ '\n' := fun d hd => hcur d (List.mem_reverse.mp hd)
    simp only [rlinesAux]
    split
    · next hc =>
      subst hc
      rw [List.flatten_cons, ih [] (by simp), stripTerms_append_newline _ hrev s]
      simp
    · next hc =>
      rw [ih (c :: cur) (by
        intro d hd
        rcases List.mem_cons.mp hd with h | h
        · simp [h, hc]
        · exact hcur d h)]
      simp

lemma flatten_rlines (s : List Char) : (rlines s).flatten = stripTerms s := by
  rw [rlines, flatten_rlinesAux s [] (by simp)]
  simp

lemma splitWSAux_no_ws :
    ∀ (a : List Char), (∀ c ∈ a, isRustWhitespace c = false) → ∀ (cur : List Char),
      splitWSAux cur a = if cur.reverse ++ a = [] then [] else [cur.reverse ++ a] := by
  intro a
  induction a with
  | nil =>
    intro _ cur
    simp only [splitWSAux, List.append_nil]
    by_cases hc : cur = [] <;> simp [hc]
  | cons c t ih =>
    intro ha cur
    have hc : isRustWhitespace c = false := ha c (List.mem_cons_self _ _)
    have ht : ∀ d ∈ t, isRustWhitespace d = false := fun d hd => ha d (List.mem_cons_of_mem _ hd)
    rw [splitWSAux, if_neg (by simp [hc])]
    rw [ih ht (c :: cur)]
    simp

lemma splitWSAux_token :
    ∀ (a : List Char), (∀ c ∈ a, isRustWhitespace c = false) →
      ∀ (w : Char), isRustWhitespace w = true → ∀ (b cur : List Char),
        splitWSAux cur (a ++ w :: b) =
          if cur.reverse ++ a = [] then splitWSAux [] b
          else (cur.reverse ++ a) :: splitWSAux [] b := by
  intro a
  induction a with
  | nil =>
    intro _ w hw b cur
    simp only [List.nil_append, splitWSAux, hw, if_pos trivial, List.append_nil]
    by_cases hc : cur = [] <;> simp [hc]
  | cons c t ih =>
    intro ha w hw b cur
    have hc : isRustWhitespace c = false := ha c (List.mem_cons_self _ _)
    have ht : ∀ d ∈ t, isRustWhitespace d = false := fun d hd => ha d (List.mem_cons_of_mem _ hd)
    rw [List.cons_append, splitWSAux, if_neg (by simp [hc])]
    rw [ih ht w hw b (c :: cur)]
    simp

lemma splitWhitespace_three (t1 t2 t3 : List Char)
    (h1 : t1 ≠ []) (h1w : ∀ c ∈ t1, isRustWhitespace c = false)
    (h2 : t2 ≠ []) (h2w : ∀ c ∈ t2, isRustWhitespace c = false)
    (h3 : t3 ≠ []) (h3w : ∀ c ∈ t3, isRustWhitespace c = false) :
    splitWhitespace (t1 ++ ' ' :: (t2 ++ ' ' :: t3)) = [t1, t2, t3] := by
  rw [splitWhitespace, splitWSAux_token t1 h1w ' ' (by decide) (t2 ++ ' ' :: t3) []]
  rw [if_neg (by simpa using h1)]
  rw [splitWSAux_token t2 h2w ' ' (by decide) t3 []]
  rw [if_neg (by simpa using h2)]
  rw [splitWSAux_no_ws t3 h3w []]
  simp [h3]

lemma isPrefixOf_self_append (l t : List Char) : List.isPrefixOf l (l ++ t) = true := by
  rw [List.isPrefixOf_iff_prefix]
  exact List.prefix_append l t

lemma isPrefixOf_cons_ne {c0 c : Char} (h : c ≠ c0) (sep rest : List Char) :
    List.isPrefixOf (c0 :: sep) (c :: rest) = false := by
  simp only [List.isPrefixOf, Bool.and_eq_false_iff]
  left
  exact beq_eq_false_iff_ne.mpr (Ne.symm h)

lemma splitSubAux_skip (c0 : Char) (sep : List Char) :
    ∀ (u t cur : List Char), splitSubAux c0 sep u.length cur (u ++ t) =
      splitSubAux c0 sep 0 cur t := by
  intro u
  induction u with
  | nil => intro t cur; rfl
  | cons x u ih =>
    intro t cur
    simpa [splitSubAux] using ih t cur

lemma splitSubAux_no_match (c0 : Char) (sep : List Char) :
    ∀ (t : List Char), (∀ c ∈ t, c ≠ c0) → ∀ (cur : List Char),
      splitSubAux c0 sep 0 cur t = [cur.reverse ++ t] := by
  intro t
  induction t with
  | nil => intro _ cur; simp [splitSubAux]
  | cons c t2 ih =>
    intro ht cur
    have hc : c ≠ c0 := ht c (List.mem_cons_self _ _)
    have ht2 : ∀ d ∈ t2, d ≠ c0 := fun d hd => ht d (List.mem_cons_of_mem _ hd)
    rw [splitSubAux, if_neg (by simp [isPrefixOf_cons_ne hc]), ih ht2 (c :: cur)]
    simp

lemma splitSub_self_prefix (c0 : Char) (sep t : List Char) (ht : ∀ c ∈ t, c ≠ c0) :
    splitSub (c0 :: sep) ((c0 :: sep) ++ t) = [[], t] := by
  rw [splitSub, List.cons_append, splitSubAux,
    if_pos (by rw [← List.cons_append]; exact isPrefixOf_self_append (c0 :: sep) t)]
  rw [splitSubAux_skip c0 sep sep t [], splitSubAux_no_match c0 sep t ht []]
  simp

lemma splitSubAux_single_sep (c0 : Char) :
    ∀ (a : List Char), (∀ c ∈ a, c ≠ c0) → ∀ (b cur : List Char),
      splitSubAux c0 [] 0 cur (a ++ c0 :: b) =
        (cur.reverse ++ a) :: splitSubAux c0 [] 0 [] b := by
  intro a
  induction a with
  | nil =>
    intro _ b cur
    rw [List.nil_append, splitSubAux,
      if_pos (by simp [isPrefixOf_self_append [c0] b])]
    simp [splitSubAux_skip c0 [] [] b]
  | cons c t ih =>
    intro ha b cur
    have hc : c ≠ c0 := ha c (List.mem_cons_self _ _)
    have ht : ∀ d ∈ t, d ≠ c0 := fun d hd => ha d (List.mem_cons_of_mem _ hd)
    rw [List.cons_append, splitSubAux, if_neg (by simp [isPrefixOf_cons_ne hc]),
      ih ht b (c :: cur)]
    simp

lemma splitSubAux_single_eq (c0 : Char) :
    ∀ (l cur : List Char),
      splitSubAux c0 [] 0 cur l =
        match l.dropWhile (fun c => !(c == c0)) with
        | [] => [cur.reverse ++ l]
        | _ :: rest =>
          (cur.reverse ++ l.takeWhile (fun c => !(c == c0))) :: splitSubAux c0 [] 0 [] rest := by
  intro l
  induction l with
  | nil => intro cur; simp [splitSubAux]
  | cons c t ih =>
    intro cur
    by_cases hc : c = c0
    · subst hc
      rw [splitSubAux, if_pos (by simp [isPrefixOf_self_append [c] t])]
      rw [List.dropWhile_cons_of_neg (by simp), List.takeWhile_cons_of_neg (by simp)]
      simp [splitSubAux_skip c [] [] t]
    · rw [splitSubAux, if_neg (by simp [isPrefixOf_cons_ne hc]), ih (c :: cur)]
      rw [List.dropWhile_cons_of_pos (by simp [hc]), List.takeWhile_cons_of_pos (by simp [hc])]
      cases hd : t.dropWhile (fun c => !(c == c0)) <;> simp

lemma mem_takeWhile_pred (p : α → Bool) :
    ∀ (l : List α) (x : α), x ∈ l.takeWhile p → p x = true := by
  intro l
  induction l with
  | nil => simp
  | cons c t ih =>
    intro x hx
    rw [List.takeWhile_cons] at hx
    split at hx
    · rcases List.mem_cons.mp hx with h | h
      · subst h; assumption
      · exact ih x h
    · simp at hx

lemma flatten_splitSub_single (c0 : Char) (l : List Char) :
    (splitSub [c0] l).flatten = l.filter (fun c => !(c == c0)) := by
  have H : ∀ (n : Nat) (l : List Char), l.length ≤ n →
      (splitSub [c0] l).flatten = l.filter (fun c => !(c == c0)) := by
    intro n
    induction n with
    | zero =>
      intro l hl
      have : l = [] := List.length_eq_zero.mp (Nat.le_zero.mp hl)
      subst this
      simp [splitSub, splitSubAux]
    | succ n ih =>
      intro l hl
      rw [splitSub, splitSubAux_single_eq c0 l []]
      cases hd : l.dropWhile (fun c => !(c == c0)) with
      | nil =>
        have hall : ∀ c ∈ l, (!(c == c0)) = true := by
          intro c hc
          have h2 := List.takeWhile_append_dropWhile (fun c => !(c == c0)) l
          rw [hd, List.append_nil] at h2
          exact mem_takeWhile_pred _ l c (h2 ▸ hc)
        rw [List.filter_eq_self.mpr hall]
        simp
      | cons d rest =>
        have hdc : d = c0 := by
          have h0 := List.head?_dropWhile_not (fun c => !(c == c0)) l
          rw [hd] at h0
          simpa using h0
        have hsplit : l.takeWhile (fun c => !(c == c0)) ++ d :: rest = l := by
          rw [← hd]; exact List.takeWhile_append_dropWhile _ _
        have hrest : rest.length ≤ n := by
          have h3 := congrArg List.length hsplit
          simp only [List.length_append, List.length_cons] at h3
          omega
        rw [List.flatten_cons, List.reverse_nil, List.nil_append, ← splitSub, ih rest hrest]
        calc l.takeWhile (fun c => !(c == c0)) ++ rest.filter (fun c => !(c == c0))
            = (l.takeWhile (fun c => !(c == c0))).filter (fun c => !(c == c0))
                ++ (d :: rest).filter (fun c => !(c == c0)) := by
              rw [List.filter_cons_of_neg (by simp [hdc]),
                List.filter_eq_self.mpr (fun c hc => mem_takeWhile_pred _ l c hc)]
          _ = l.filter (fun c => !(c == c0)) := by rw [← List.filter_append, hsplit]
  exact H l.length l le_rfl

lemma trimStart_space_cons (v : List Char)
    (hv : ∀ c ∈ v.take 1, isRustWhitespace c = false) :
    trimStart (' ' :: v) = v := by
  rw [trimStart, List.dropWhile_cons_of_pos (by decide)]
  cases v with
  | nil => rfl
  | cons d t => rw [List.dropWhile_cons_of_neg (by simp [hv d (by simp)])]
example : splitSub [':'] "Host: a:b".toList = ["Host".toList, " a".toList, "b".toList] := by decide
example : splitSub "HTTP/".toList "HTTP/1.1".toList = [[], "1.1".toList] := by decide
example : splitWhitespace "GET  /  HTTP/1.1".toList
    = ["GET".toList, "/".toList, "HTTP/1.1".toList] := by decide
example : natRepr 207 = "207".toList := by decide
example : parseU8 "255".toList = some 255 ∧ parseU8 "256".toList = none ∧
    parseU8 "x".toList = none ∧ parseU8 "+3".toList = some 3 := by decide

lemma digitChar_spec (n : Nat) (h : n < 10) :
    isDigitChar (Nat.digitChar n) = true ∧ (Nat.digitChar n).toNat = 48 + n := by
  interval_cases n <;> exact ⟨by decide, by decide⟩

lemma digitsVal_append_digit (a : List Char) (c : Char) :
    digitsVal (a ++ [c]) = digitsVal a * 10 + (c.toNat - 48) := by
  rw [digitsVal, List.foldl_append]
  rfl

lemma natReprAux_spec : ∀ (fuel n : Nat), n < fuel →
    (∀ c ∈ natReprAux fuel n, isDigitChar c = true) ∧ natReprAux fuel n ≠ [] ∧
      digitsVal (natReprAux fuel n) = n := by
  intro fuel
  induction fuel with
  | zero => intro n h; exact absurd h (Nat.not_lt_zero n)
  | succ f ih =>
    intro n hn
    by_cases h10 : n < 10
    · rw [natReprAux, if_pos h10]
      obtain ⟨hd1, hd2⟩ := digitChar_spec n h10
      refine ⟨?_, by simp, ?_⟩
      · intro c hc
        simp only [List.mem_singleton] at hc
        subst hc
        exact hd1
      · have hv : digitsVal [Nat.digitChar n] = (Nat.digitChar n).toNat - 48 := by
          simp [digitsVal]
        rw [hv, hd2]
        omega
    · rw [natReprAux, if_neg h10]
      have h0 : 10 ≤ n := Nat.le_of_not_lt h10
      have hdiv : n / 10 < n := Nat.div_lt_self (by omega) (by omega)
      have hrec : n / 10 < f := by omega
      obtain ⟨ha, hne, hv⟩ := ih (n / 10) hrec
      have hm10 : n % 10 < 10 := Nat.mod_lt _ (by omega)
      obtain ⟨hmd, hmt⟩ := digitChar_spec _ hm10
      refine ⟨?_, by simp, ?_⟩
      · intro c hc
        rcases List.mem_append.mp hc with h | h
        · exact ha c h
        · simp only [List.mem_singleton] at h
          subst h
          exact hmd
      · rw [digitsVal_append_digit, hv, hmt]
        have hdm := Nat.div_add_mod n 10
        omega

lemma natRepr_spec (n : Nat) :
    (∀ c ∈ natRepr n, isDigitChar c = true) ∧ natRepr n ≠ [] ∧ digitsVal (natRepr n) = n :=
  natReprAux_spec (n + 1) n (Nat.lt_succ_self n)

lemma digit_char_props {c : Char} (h : isDigitChar c = true) :
    c ≠ ':' ∧ c ≠ '\r' ∧ c ≠ '\n' ∧ c ≠ '.' ∧ c ≠ 'H' ∧ c ≠ '+' ∧
      isRustWhitespace c = false := by
  have hn : 48 ≤ c.toNat ∧ c.toNat ≤ 57 := by simpa [isDigitChar] using h
  have hws : isRustWhitespace c = false := by
    by_contra hws
    rw [Bool.not_eq_false] at hws
    simp only [isRustWhitespace, Bool.or_eq_true, beq_iff_eq, or_assoc] at hws
    rcases hws with rfl|rfl|rfl|rfl|rfl|rfl|rfl|rfl|rfl|rfl|rfl|rfl|rfl|rfl|rfl|rfl|rfl|rfl|rfl|rfl|rfl|rfl|rfl|rfl|rfl <;>
      revert hn <;> decide
  refine ⟨?_, ?_, ?_, ?_, ?_, ?_, hws⟩ <;>
    (rintro rfl; revert hn; decide)

lemma rustParseNat_natRepr (bound n : Nat) (h : n < bound) :
    rustParseNat bound (natRepr n) = some n := by
  obtain ⟨hd, hne, hv⟩ := natRepr_spec n
  cases hc : natRepr n with
  | nil => exact absurd hc hne
  | cons c cs =>
    have hcd : isDigitChar c = true := hd c (hc ▸ List.mem_cons_self _ _)
    have hcp : c ≠ '+' := (digit_char_props hcd).2.2.2.2.2.1
    rw [rustParseNat]
    · have hall : (c :: cs).all isDigitChar = true := by
        rw [List.all_eq_true]
        intro x hx
        refine hd x ?_
        rw [hc]
        exact hx
      rw [if_neg (by simp), if_pos hall, ← hc, hv, if_pos h]
    · intro rest heq
      rw [List.cons.injEq] at heq
      exact hcp heq.1

lemma methodDisplay_ne_nil (mth : Method) : methodDisplay mth ≠ [] := by
  cases mth <;> decide

lemma methodDisplay_no_ws (mth : Method) :
    ∀ c ∈ methodDisplay mth, isRustWhitespace c = false := by
  cases mth <;> decide

lemma methodDisplay_no_newline (mth : Method) : ∀ c ∈ methodDisplay mth, c ≠ '\n' := by
  cases mth <;> decide

lemma methodTryFrom_display (mth : Method) :
    methodTryFrom (methodDisplay mth) = some mth := by
  cases mth <;> decide

lemma foldl_frameFold : ∀ (fs : List Frame) (i p : List Char),
    fs.foldl frameFold (i, p) = (i ++ headersPart fs, p ++ payloadPart fs) := by
  intro fs
  induction fs with
  | nil => intro i p; simp [headersPart, payloadPart]
  | cons f t ih =>
    intro i p
    cases f with
    | headers hs =>
      rw [List.foldl_cons, frameFold, ih]
      simp [headersPart, payloadPart, List.append_assoc]
    | data q =>
      rw [List.foldl_cons, frameFold, ih]
      simp [headersPart, payloadPart, List.append_assoc]

lemma into_bytes_eq (m : Message) :
    Message.into_bytes m =
      startLine m ++ headersPart m.frames ++ '\r' :: '\n' :: payloadPart m.frames := by
  simp only [Message.into_bytes, foldl_frameFold]
  simp [List.append_assoc]

lemma headerLineText_eq (h : Header) : headerLineText h = headerCore h ++ ['\r', '\n'] := by
  simp [headerLineText, headerCore]

lemma headerCore_ne_nil (h : Header) : headerCore h ≠ [] := by
  simp [headerCore]

lemma headerCore_no_newline (h : Header) (hh : wfHeader h) : ∀ c ∈ headerCore h, c ≠ '\n' := by
  obtain ⟨⟨hn1, hn2⟩, hv1, hv2, hv3⟩ := hh
  intro c hc
  simp only [headerCore, List.mem_append, List.mem_cons] at hc
  rcases hc with h1 | h1 | h1 | h1
  · exact (hn2 c h1).2.2
  · subst h1; decide
  · subst h1; decide
  · exact (hv2 c h1).2.2

lemma parseHeaderLine_core (h : Header) (hh : wfHeader h) :
    parseHeaderLine (headerCore h) = some h := by
  obtain ⟨⟨hn1, hn2⟩, hv1, hv2, hv3⟩ := hh
  have hvno : ∀ c ∈ ' ' :: h.value, c ≠ ':' := by
    intro c hc
    rcases List.mem_cons.mp hc with h1 | h1
    · subst h1; decide
    · exact (hv2 c h1).1
  have hsegs : splitSub [':'] (headerCore h) = [h.name, ' ' :: h.value] := by
    rw [headerCore, splitSub,
      splitSubAux_single_sep ':' h.name (fun c hc => (hn2 c hc).1) (' ' :: h.value) [],
      splitSubAux_no_match ':' [] (' ' :: h.value) hvno []]
    simp
  rw [parseHeaderLine, hsegs]
  simp only [List.take_succ_cons, List.take_zero, List.drop_succ_cons, List.drop_zero,
    List.flatten_cons, List.flatten_nil, List.append_nil]
  rw [trimStart_space_cons h.value hv3, if_neg (by simp [hn1, hv1])]

lemma parseHeaderLines_cores : ∀ (hs : List Header), (∀ h ∈ hs, wfHeader h) →
    parseHeaderLines (hs.map headerCore) = some hs := by
  intro hs
  induction hs with
  | nil => intro _; rfl
  | cons h t ih =>
    intro ha
    simp [parseHeaderLines, parseHeaderLine_core h (ha h (List.mem_cons_self _ _)),
      ih (fun g hg => ha g (List.mem_cons_of_mem _ hg))]

lemma rlines_headersBlock : ∀ (hs : List Header), (∀ h ∈ hs, wfHeader h) →
    rlines (headersBlock hs) = hs.map headerCore := by
  intro hs
  induction hs with
  | nil => intro _; rfl
  | cons h t ih =>
    intro ha
    have he : headersBlock (h :: t) = headerCore h ++ '\r' :: '\n' :: headersBlock t := by
      simp [headersBlock, headerLineText_eq]
    rw [he, rlines_crlf _ _ (headerCore_no_newline h (ha h (List.mem_cons_self _ _))),
      ih (fun g hg => ha g (List.mem_cons_of_mem _ hg)), List.map_cons]

lemma rlines_headers_body : ∀ (hs : List Header), (∀ h ∈ hs, wfHeader h) → ∀ (body : List Char),
    rlines (headersBlock hs ++ '\r' :: '\n' :: body)
      = hs.map headerCore ++ [] :: rlines body := by
  intro hs
  induction hs with
  | nil =>
    intro _ body
    have he : headersBlock [] ++ '\r' :: '\n' :: body = [] ++ '\r' :: '\n' :: body := rfl
    rw [he, rlines_crlf [] body (by simp)]
    simp
  | cons h t ih =>
    intro ha body
    have he : headersBlock (h :: t) ++ '\r' :: '\n' :: body
        = headerCore h ++ '\r' :: '\n' :: (headersBlock t ++ '\r' :: '\n' :: body) := by
      simp [headersBlock, headerLineText_eq]
    rw [he, rlines_crlf _ _ (headerCore_no_newline h (ha h (List.mem_cons_self _ _))),
      ih (fun g hg => ha g (List.mem_cons_of_mem _ hg)) body, List.map_cons, List.cons_append]

lemma takeWhile_blank : ∀ (A : List (List Char)), (∀ l ∈ A, l ≠ []) → ∀ (B : List (List Char)),
    (A ++ [] :: B).takeWhile (fun l => !l.isEmpty) = A := by
  intro A
  induction A with
  | nil => intro _ B; simp
  | cons a t ih =>
    intro hA B
    rw [List.cons_append,
      List.takeWhile_cons_of_pos (by simp [hA a (List.mem_cons_self _ _)]),
      ih (fun l hl => hA l (List.mem_cons_of_mem _ hl)) B]

lemma dropWhile_blank : ∀ (A : List (List Char)), (∀ l ∈ A, l ≠ []) → ∀ (B : List (List Char)),
    (A ++ [] :: B).dropWhile (fun l => !l.isEmpty) = [] :: B := by
  intro A
  induction A with
  | nil => intro _ B; simp
  | cons a t ih =>
    intro hA B
    rw [List.cons_append,
      List.dropWhile_cons_of_pos (by simp [hA a (List.mem_cons_self _ _)]),
      ih (fun l hl => hA l (List.mem_cons_of_mem _ hl)) B]

lemma statusCore_split (mth : Method) (tgt : List Char) (maj mnr : Nat) (htgt : wfTarget tgt) :
    splitWhitespace (statusCore mth tgt maj mnr)
      = [methodDisplay mth, tgt, "HTTP/".toList ++ (natRepr maj ++ '.' :: natRepr mnr)] := by
  obtain ⟨ht1, ht2⟩ := htgt
  have hv : ∀ c ∈ "HTTP/".toList ++ (natRepr maj ++ '.' :: natRepr mnr),
      isRustWhitespace c = false := by
    intro c hc
    simp only [List.mem_append, List.mem_cons] at hc
    rcases hc with h1 | h1 | h1 | h1
    · simp only [show "HTTP/".toList = ['H', 'T', 'T', 'P', '/'] from rfl, List.mem_cons,
        List.not_mem_nil, or_false] at h1
      rcases h1 with rfl | rfl | rfl | rfl | rfl <;> decide
    · exact (digit_char_props ((natRepr_spec maj).1 c h1)).2.2.2.2.2.2
    · subst h1; decide
    · exact (digit_char_props ((natRepr_spec mnr).1 c h1)).2.2.2.2.2.2
  have e : statusCore mth tgt maj mnr
      = methodDisplay mth ++ ' ' :: (tgt ++ ' ' ::
          ("HTTP/".toList ++ (natRepr maj ++ '.' :: natRepr mnr))) := by
    simp [statusCore, List.append_assoc]
  rw [e, splitWhitespace]
  rw [splitWSAux_token (methodDisplay mth) (methodDisplay_no_ws mth) ' ' (by decide) _ []]
  rw [if_neg (by simp [methodDisplay_ne_nil mth])]
  rw [splitWSAux_token tgt ht2 ' ' (by decide) _ []]
  rw [if_neg (by simp [ht1])]
  rw [splitWSAux_no_ws _ hv []]
  simp

lemma parse_status_line_core (mth : Method) (tgt : List Char) (maj mnr : Nat)
    (htgt : wfTarget tgt) (hmaj : maj < 256) (hmnr : mnr < 256) :
    Message.parse_status_line (statusCore mth tgt maj mnr)
      = .ok (mth, tgt, ⟨maj, mnr⟩) := by
  have hsw := statusCore_split mth tgt maj mnr htgt
  have hHno : ∀ c ∈ natRepr maj ++ '.' :: natRepr mnr, c ≠ 'H' := by
    intro c hc
    simp only [List.mem_append, List.mem_cons] at hc
    rcases hc with h1 | h1 | h1
    · exact (digit_char_props ((natRepr_spec maj).1 c h1)).2.2.2.2.1
    · subst h1; decide
    · exact (digit_char_props ((natRepr_spec mnr).1 c h1)).2.2.2.2.1
  have hsplit1 : splitSub "HTTP/".toList ("HTTP/".toList ++ (natRepr maj ++ '.' :: natRepr mnr))
      = [[], natRepr maj ++ '.' :: natRepr mnr] := by
    have e : "HTTP/".toList = 'H' :: "TTP/".toList := rfl
    rw [e]
    exact splitSub_self_prefix 'H' "TTP/".toList _ hHno
  have hmajno : ∀ c ∈ natRepr maj, c ≠ '.' :=
    fun c hc => (digit_char_props ((natRepr_spec maj).1 c hc)).2.2.2.1
  have hmnrno : ∀ c ∈ natRepr mnr, c ≠ '.' :=
    fun c hc => (digit_char_props ((natRepr_spec mnr).1 c hc)).2.2.2.1
  have hsplit2 : splitSub ['.'] (natRepr maj ++ '.' :: natRepr mnr)
      = [natRepr maj, natRepr mnr] := by
    rw [splitSub, splitSubAux_single_sep '.' (natRepr maj) hmajno (natRepr mnr) [],
      splitSubAux_no_match '.' [] (natRepr mnr) hmnrno []]
    simp
  simp only [Message.parse_status_line, hsw, List.get?_cons_zero, List.get?_cons_succ,
    methodTryFrom_display, hsplit1, hsplit2, parseU8,
    rustParseNat_natRepr 256 maj hmaj, rustParseNat_natRepr 256 mnr hmnr]

lemma statusCore_no_newline (mth : Method) (tgt : List Char) (maj mnr : Nat)
    (htgt : wfTarget tgt) : ∀ c ∈ statusCore mth tgt maj mnr, c ≠ '\n' := by
  obtain ⟨ht1, ht2⟩ := htgt
  intro c hc
  simp only [statusCore, List.mem_append, List.mem_cons, or_assoc] at hc
  rcases hc with h1 | h1 | h1 | h1 | h1 | h1 | h1 | h1
  · exact methodDisplay_no_newline mth c h1
  · subst h1; decide
  · intro he
    subst he
    exact absurd (ht2 _ h1) (by decide)
  · subst h1; decide
  · simp only [show "HTTP/".toList = ['H', 'T', 'T', 'P', '/'] from rfl, List.mem_cons,
      List.not_mem_nil, or_false] at h1
    rcases h1 with rfl | rfl | rfl | rfl | rfl <;> decide
  · exact (digit_char_props ((natRepr_spec maj).1 c h1)).2.2.1
  · subst h1; decide
  · exact (digit_char_props ((natRepr_spec mnr).1 c h1)).2.2.1

lemma parse_mkInput (mth : Method) (tgt : List Char) (maj mnr : Nat) (hs : List Header)
    (body : List Char) (htgt : wfTarget tgt) (hmaj : maj < 256) (hmnr : mnr < 256)
    (hhs : ∀ h ∈ hs, wfHeader h) :
    Message.parse (mkInput mth tgt maj mnr hs body) =
      (match hs.find? (fun h => decide (h.name = clChars)) with
      | none => .ok (.request mth tgt ⟨maj, mnr⟩ [.headers hs])
      | some hd =>
        match parseUsize hd.value with
        | none => .fail
        | some L => .ok (.request mth tgt ⟨maj, mnr⟩
            [.headers hs, .data ((stripTerms body).take L)])) := by
  have hls : rlines (mkInput mth tgt maj mnr hs body)
      = statusCore mth tgt maj mnr :: (hs.map headerCore ++ [] :: rlines body) := by
    rw [mkInput, rlines_crlf _ _ (statusCore_no_newline mth tgt maj mnr htgt),
      rlines_headers_body hs hhs body]
  have hlen : ¬((mkInput mth tgt maj mnr hs body).length = 0) := by
    simp only [List.length_eq_zero, mkInput]
    simp
  have hcoreN : ∀ l ∈ hs.map headerCore, l ≠ [] := by
    intro l hl
    obtain ⟨h, _, rfl⟩ := List.mem_map.mp hl
    exact headerCore_ne_nil h
  have hHL : headerLinesOf
        (statusCore mth tgt maj mnr :: (hs.map headerCore ++ [] :: rlines body))
      = hs.map headerCore := by
    rw [headerLinesOf]
    simp only [List.drop_succ_cons, List.drop_zero]
    exact takeWhile_blank _ hcoreN _
  have hRest : restOf (statusCore mth tgt maj mnr :: (hs.map headerCore ++ [] :: rlines body))
      = stripTerms body := by
    rw [restOf]
    simp only [List.drop_succ_cons, List.drop_zero]
    rw [dropWhile_blank _ hcoreN _]
    simp [flatten_rlines]
  have hStr : ((hs.map headerCore).map (fun l => l ++ ['\r', '\n'])).flatten
      = headersBlock hs := by
    rw [List.map_map]
    have e : ((fun l => l ++ ['\r', '\n']) ∘ headerCore) = headerLineText := by
      funext g
      rw [Function.comp_apply, headerLineText_eq]
    rw [e, headersBlock]
  simp only [Message.parse, if_neg hlen, hls, List.head?_cons,
    parse_status_line_core mth tgt maj mnr htgt hmaj hmnr, hHL, hRest, hStr,
    Message.parse_headers, rlines_headersBlock hs hhs, parseHeaderLines_cores hs hhs]

lemma wfValue_digits (v : List Char) (hne : v ≠ [])
    (hd : ∀ c ∈ v, isDigitChar c = true) : wfValue v := by
  refine ⟨hne, ?_, ?_⟩
  · intro c hc
    obtain ⟨p1, p2, p3, _, _, _, _⟩ := digit_char_props (hd c hc)
    exact ⟨p1, p2, p3⟩
  · intro c hc
    exact (digit_char_props (hd c (List.take_subset _ _ hc))).2.2.2.2.2.2

lemma parse_ok_shape {s : List Char} {m : Message} (h : Message.parse s = .ok m) :
    ∃ mth tgt ver hs,
      (m = .request mth tgt ver [.headers hs] ∧
        hs.find? (fun hd => decide (hd.name = clChars)) = none) ∨
      (∃ hd L, hs.find? (fun hd2 => decide (hd2.name = clChars)) = some hd ∧
        parseUsize hd.value = some L ∧
        m = .request mth tgt ver [.headers hs, .data ((restOf (rlines s)).take L)]) := by
  simp only [Message.parse] at h
  split at h
  · exact absurd h (by simp)
  · split at h
    · exact absurd h (by simp)
    · split at h
      · exact absurd h (by simp)
      · exact absurd h (by simp)
      · next method target version heq2 =>
        split at h
        · exact absurd h (by simp)
        · next hdrs heq3 =>
          split at h
          · next hf =>
            refine ⟨method, target, version, hdrs, Or.inl ⟨?_, hf⟩⟩
            cases h
            rfl
          · next hd hf =>
            split at h
            · exact absurd h (by simp)
            · next L hu =>
              refine ⟨method, target, version, hdrs, Or.inr ⟨hd, L, hf, hu, ?_⟩⟩
              cases h
              rfl

lemma restOf_rlines_no_newline (s : List Char) : ∀ c ∈ restOf (rlines s), c ≠ '\n' := by
  intro c hc
  rw [restOf, List.mem_flatten] at hc
  obtain ⟨l, hl, hcl⟩ := hc
  have hsub : List.Sublist ((((rlines s).drop 1).dropWhile (fun x => !x.isEmpty)).drop 1)
      (rlines s) :=
    (List.drop_sublist 1 _).trans ((List.dropWhile_sublist _).trans (List.drop_sublist 1 _))
  exact rlines_mem s l (hsub.subset hl) c hcl

/-- C1: the spec says a version component that fails to parse as an
unsigned integer yields `Malformed`, but `Message::parse_status_line`
calls `.parse::<u8>().unwrap()` (src/lib.rs lines 256 and 267), so such an
input panics instead: both a non-numeric component and one exceeding the
8-bit range reach the `unwrap` panic. -/
theorem c1_version_parse_panics :
    Message.parse "GET / HTTP/x.1\r\n\r\n".toList = PResult.panic ∧
    Message.parse "GET / HTTP/999.1\r\n\r\n".toList = PResult.panic :=
  ⟨by decide, by decide⟩

/-- C5: `Message::parse` returns the `Malformed` error — never a panic and
never a partial message — for the empty input, an unrecognized method, a
status line with fewer than three tokens, and a header line with no
colon. -/
theorem c5_malformed_inputs :
    Message.parse [] = PResult.fail ∧
    Message.parse "BADVERB / HTTP/1.1\r\n\r\n".toList = PResult.fail ∧
    Message.parse "GET /\r\n\r\n".toList = PResult.fail ∧
    Message.parse "GET / HTTP/1.1\r\nNoColonHere\r\n\r\n".toList = PResult.fail :=
  ⟨by decide, by decide, by decide, by decide⟩

/-- C2 counterexample: the claim says the value of a header line is
everything after the first `:` (later colons preserved), but the parser
collects `split(":").skip(1)`, which drops the separating colons: the line
`Host: a:b` parses to the value `ab`, not `a:b`. -/
theorem c2_colon_value_counterexample :
    Message.parse_headers "Host: a:b".toList
      = some [⟨"Host".toList, "ab".toList⟩] ∧
    "ab".toList ≠ "a:b".toList :=
  ⟨by decide, by decide⟩

/-- C2 amended: for every header line accepted by the parser, the name is
everything before the first colon, and the value is everything after the
first colon with the remaining colon separators removed and leading
whitespace stripped. -/
theorem c2_header_split_amended (line : List Char) (h : Header)
    (hp : parseHeaderLine line = some h) :
    h.name = line.takeWhile (fun c => !(c == ':')) ∧
    h.value = trimStart (((line.dropWhile (fun c => !(c == ':'))).drop 1).filter
      (fun c => !(c == ':'))) := by
  rw [parseHeaderLine, splitSub, splitSubAux_single_eq ':' line []] at hp
  cases hd : line.dropWhile (fun c => !(c == ':')) with
  | nil =>
    rw [hd] at hp
    simp only [List.reverse_nil, List.nil_append, List.take_succ_cons, List.take_zero,
      List.flatten_cons, List.flatten_nil, List.append_nil, List.drop_succ_cons,
      List.drop_zero] at hp
    exact absurd hp (by simp [trimStart])
  | cons d rest =>
    rw [hd] at hp
    simp only [List.reverse_nil, List.nil_append, List.take_succ_cons, List.take_zero,
      List.flatten_cons, List.flatten_nil, List.append_nil, List.drop_succ_cons,
      List.drop_zero] at hp
    have e : splitSubAux ':' [] 0 [] rest = splitSub [':'] rest := rfl
    rw [e, flatten_splitSub_single ':' rest] at hp
    split at hp
    · exact absurd hp (by simp)
    · next hcond =>
      cases hp
      exact ⟨rfl, by simp⟩

theorem c2_header_split_amended_witness :
    parseHeaderLine "Host: a:b".toList = some ⟨"Host".toList, "ab".toList⟩ ∧
    ("Host".toList = "Host: a:b".toList.takeWhile (fun c => !(c == ':')) ∧
      "ab".toList = trimStart ((("Host: a:b".toList.dropWhile
        (fun c => !(c == ':'))).drop 1).filter (fun c => !(c == ':')))) :=
  ⟨by decide, c2_header_split_amended "Host: a:b".toList ⟨"Host".toList, "ab".toList⟩
    (by decide)⟩

/-- C10 counterexample: the claim says a parsed payload contains no `\r`
and no `\n`; `\n` is indeed impossible, but a carriage return that is not
part of a `\r\n` terminator survives line splitting and appears in the
payload. -/
theorem c10_payload_bare_cr_counterexample :
    Message.parse "GET / HTTP/1.1\nContent-Length: 3\n\nA\rB".toList
      = .ok (.request .get "/".toList ⟨1, 1⟩
          [.headers [⟨"Content-Length".toList, "3".toList⟩], .data ['A', '\r', 'B']]) ∧
    '\r' ∈ ['A', '\r', 'B'] :=
  ⟨by decide, by decide⟩

/-- C10 amended: every payload produced by `Message::parse` is free of
`\n`: the body is assembled by concatenating the remaining lines (whose
terminators `\n` / `\r\n` are removed) and truncating, and lines never
contain `\n`.  (A bare `\r` that is not part of a terminator can remain.) -/
theorem c10_payload_no_lf_amended (s : List Char) (m : Message)
    (h : Message.parse s = .ok m) (p : List Char) (hp : Frame.data p ∈ m.frames) :
    '\n' ∉ p := by
  obtain ⟨mth, tgt, ver, hs, hcase⟩ := parse_ok_shape h
  rcases hcase with ⟨rfl, _⟩ | ⟨hd, L, _, _, rfl⟩
  · simp [Message.frames] at hp
  · simp only [Message.frames, List.mem_cons, List.not_mem_nil, or_false] at hp
    rcases hp with hp | hp
    · exact absurd hp (by simp)
    · have hpq : p = (restOf (rlines s)).take L := by
        exact (Frame.data.injEq _ _).mp hp
      subst hpq
      intro hnl
      exact restOf_rlines_no_newline s '\n' (List.take_subset _ _ hnl) rfl

theorem c10_payload_no_lf_amended_witness :
    Message.parse "GET / HTTP/1.1\r\nContent-Length: 3\r\n\r\nabc".toList
      = .ok (.request .get "/".toList ⟨1, 1⟩
          [.headers [⟨"Content-Length".toList, "3".toList⟩], .data "abc".toList]) ∧
    '\n' ∉ "abc".toList :=
  ⟨by decide, c10_payload_no_lf_amended "GET / HTTP/1.1\r\nContent-Length: 3\r\n\r\nabc".toList
    (.request .get "/".toList ⟨1, 1⟩
      [.headers [⟨"Content-Length".toList, "3".toList⟩], .data "abc".toList])
    (by decide) "abc".toList (by decide)⟩

/-- C6: `Message::into_bytes` is total (a total function of the message
value) and its output is exactly the start line, then one
`name: value\r\n` line per header in frame and list order, then a single
`\r\n` separator, then the concatenation of all Data-frame bytes — the
separator is present even for an empty header list, as the concrete
empty-headers request shows. -/
theorem c6_serialization_shape :
    (∀ m : Message, Message.into_bytes m
        = startLine m ++ headersPart m.frames ++ '\r' :: '\n' :: payloadPart m.frames) ∧
    Message.into_bytes (.request .get "/".toList ⟨1, 1⟩ [])
        = "GET / HTTP/1.1\r\n\r\n".toList :=
  ⟨into_bytes_eq, by decide⟩

/-- C9: method recognition is case-insensitive (`get`, `GET`, `Get` all
parse to `Method::Get`) and serialization of a method is upper-case: the
method's display text is `GET` and a serialized request carrying it starts
with `GET `. -/
theorem c9_method_case_insensitive :
    methodTryFrom "get".toList = some Method.get ∧
    methodTryFrom "GET".toList = some Method.get ∧
    methodTryFrom "Get".toList = some Method.get ∧
    methodDisplay Method.get = "GET".toList ∧
    ∀ (tgt : List Char) (ver : Version) (fs : List Frame),
      (Message.into_bytes (.request .get tgt ver fs)).take 4 = "GET ".toList := by
  refine ⟨by decide, by decide, by decide, by decide, ?_⟩
  intro tgt ver fs
  rw [into_bytes_eq]
  have e : startLine (.request .get tgt ver fs)
      = 'G' :: 'E' :: 'T' :: ' ' :: (tgt ++ ' ' :: "HTTP/".toList
          ++ versionText ver ++ ['\r', '\n']) := by
    simp [startLine, methodDisplay, List.append_assoc]
  rw [e]
  simp [List.take_succ_cons, List.append_assoc]

/-- C3 counterexample: the claim asserts the round trip for every
synthesized request with a valid method, opaque target, version, one
payload-consistent `Content-Length` header and one Data frame, but a
payload containing a newline refutes it: the request with payload `a\nb`
(length 3, Content-Length 3) serializes and parses back to payload `ab` -
the body is rebuilt from the remaining lines with terminators removed, so
the round-tripped message differs from the original.  (A header value
containing a colon, or a target containing whitespace, breaks the round
trip the same way.) -/
theorem c3_roundtrip_counterexample :
    Message.parse (Message.into_bytes (.request .get "/".toList ⟨1, 1⟩
        [.headers [⟨"Content-Length".toList, "3".toList⟩], .data "a\nb".toList]))
      = .ok (.request .get "/".toList ⟨1, 1⟩
        [.headers [⟨"Content-Length".toList, "3".toList⟩], .data "ab".toList]) ∧
    "ab".toList ≠ "a\nb".toList :=
  ⟨by decide, by decide⟩

/-- C3 amended: serialize-then-parse round trip, restricted to requests
whose components survive the wire format.  A synthesized request with a
whitespace-free nonempty target, 8-bit version components, headers whose
names and values are nonempty and free of colons and line-terminator
characters (values not starting with whitespace), a `Content-Length`
header whose value parses to the payload length, and a newline-free
payload, serialized with `Message::into_bytes` and parsed back with
`Message::parse`, yields the identical message: same method, target,
version, headers and payload bytes. -/
theorem c3_request_roundtrip (mth : Method) (tgt : List Char) (maj mnr : Nat)
    (hs : List Header) (payload : List Char) (hd : Header)
    (htgt : wfTarget tgt) (hmaj : maj < 256) (hmnr : mnr < 256)
    (hhs : ∀ h ∈ hs, wfHeader h)
    (hfind : hs.find? (fun h => decide (h.name = clChars)) = some hd)
    (hval : parseUsize hd.value = some payload.length)
    (hpay : '\n' ∉ payload) :
    Message.parse (Message.into_bytes
        (.request mth tgt ⟨maj, mnr⟩ [.headers hs, .data payload]))
      = .ok (.request mth tgt ⟨maj, mnr⟩ [.headers hs, .data payload]) := by
  have heq : Message.into_bytes (.request mth tgt ⟨maj, mnr⟩ [.headers hs, .data payload])
      = mkInput mth tgt maj mnr hs payload := by
    rw [into_bytes_eq, mkInput]
    simp only [Message.frames, headersPart, payloadPart, List.map_cons, List.map_nil,
      List.flatten_cons, List.flatten_nil, List.append_nil, List.nil_append]
    simp [startLine, statusCore, versionText, headersBlock, List.append_assoc]
  rw [heq, parse_mkInput mth tgt maj mnr hs payload htgt hmaj hmnr hhs]
  simp only [hfind, hval]
  rw [stripTerms_of_no_newline payload (fun c hc hne => hpay (hne ▸ hc)), List.take_length]

theorem c3_request_roundtrip_witness :
    Message.parse (Message.into_bytes (.request .get "/".toList ⟨1, 1⟩
        [.headers [⟨"Content-Length".toList, "5".toList⟩], .data "HELLO".toList]))
      = .ok (.request .get "/".toList ⟨1, 1⟩
        [.headers [⟨"Content-Length".toList, "5".toList⟩], .data "HELLO".toList]) :=
  c3_request_roundtrip .get "/".toList 1 1 [⟨"Content-Length".toList, "5".toList⟩]
    "HELLO".toList ⟨"Content-Length".toList, "5".toList⟩ (by decide) (by decide) (by decide)
    (by decide) (by decide) (by decide) (by decide)

lemma c4_input_eq (v body : List Char) :
    "GET / HTTP/1.1\r\nContent-Length: ".toList ++ v ++ '\r' :: '\n' :: '\r' :: '\n' :: body
      = mkInput .get "/".toList 1 1 [⟨clChars, v⟩] body := by
  rw [mkInput, show statusCore .get "/".toList 1 1 = "GET / HTTP/1.1".toList from by decide,
    show "GET / HTTP/1.1\r\nContent-Length: ".toList
      = "GET / HTTP/1.1".toList ++ '\r' :: '\n' :: (clChars ++ [':', ' ']) from by decide]
  simp [headersBlock, headerLineText, List.append_assoc]

/-- C4 counterexample: the claim reads the payload as the first `L`
characters of the raw remainder after the blank line, but the parser first
joins the remaining lines with their terminators removed and only then
takes `L` characters: for a declared length 3 and remainder `A` newline
`BC`, the payload is `ABC`, not the first three raw characters `A`,
newline, `B`. -/
theorem c4_body_truncation_counterexample :
    Message.parse "GET / HTTP/1.1\r\nContent-Length: 3\r\n\r\nA\nBC".toList
      = .ok (.request .get "/".toList ⟨1, 1⟩
          [.headers [⟨"Content-Length".toList, "3".toList⟩], .data "ABC".toList]) ∧
    "ABC".toList ≠ ("A\nBC".toList).take 3 :=
  ⟨by decide, by decide⟩

/-- C4 amended: with a valid `Content-Length` value parsing to `L`, the
payload is exactly the first `L` characters of the line-joined remainder
after the blank line (line terminators removed before counting); content
beyond `L` is discarded and a shortfall yields the shorter remainder, not
an error. -/
theorem c4_body_truncation_amended (v : List Char) (L : Nat) (body : List Char)
    (hv : parseUsize v = some L) (hwf : wfValue v) :
    Message.parse ("GET / HTTP/1.1\r\nContent-Length: ".toList ++ v
        ++ '\r' :: '\n' :: '\r' :: '\n' :: body)
      = .ok (.request .get "/".toList ⟨1, 1⟩
          [.headers [⟨clChars, v⟩], .data ((stripTerms body).take L)]) := by
  rw [c4_input_eq v body,
    parse_mkInput .get "/".toList 1 1 [⟨clChars, v⟩] body (by decide) (by decide) (by decide)
      (by
        intro h hm
        simp only [List.mem_singleton] at hm
        subst hm
        exact ⟨show wfName clChars by decide, hwf⟩)]
  have hf : ([⟨clChars, v⟩] : List Header).find? (fun h => decide (h.name = clChars))
      = some ⟨clChars, v⟩ := List.find?_cons_of_pos _ (by simp)
  simp only [hf, hv]

theorem c4_body_truncation_amended_witness :
    Message.parse "GET / HTTP/1.1\r\nContent-Length: 5\r\n\r\nHELLOEXTRA".toList
      = .ok (.request .get "/".toList ⟨1, 1⟩
          [.headers [⟨"Content-Length".toList, "5".toList⟩], .data "HELLO".toList]) := by
  have h := c4_body_truncation_amended "5".toList 5 "HELLOEXTRA".toList (by decide) (by decide)
  rw [show ("GET / HTTP/1.1\r\nContent-Length: ".toList ++ "5".toList
        ++ '\r' :: '\n' :: '\r' :: '\n' :: "HELLOEXTRA".toList)
      = "GET / HTTP/1.1\r\nContent-Length: 5\r\n\r\nHELLOEXTRA".toList from by decide,
    show ((stripTerms "HELLOEXTRA".toList).take 5) = "HELLO".toList from by decide] at h
  exact h

/-- C7 counterexample: the claim quantifies over every input whose status
line is valid and which has no `Content-Length` header and asserts the
parse succeeds; but an input with a valid status line, no `Content-Length`
header anywhere, and a colon-free header line is rejected wholly. -/
theorem c7_success_counterexample :
    Message.parse_status_line "GET / HTTP/1.1".toList
        = .ok (.get, "/".toList, ⟨1, 1⟩) ∧
    Message.parse "GET / HTTP/1.1\r\nX\r\n\r\n".toList = PResult.fail :=
  ⟨by decide, by decide⟩

/-- C7 amended: for every successfully parsed input whose headers contain
no header named exactly `Content-Length`, the frame sequence is just the
Headers frame (no Data frame); and the header-section-free input
`GET / HTTP/1.1\r\n\r\n` parses successfully to a message with an empty
header list, not an error. -/
theorem c7_no_content_length_frames :
    (∀ (s : List Char) (m : Message), Message.parse s = .ok m →
      ∀ hs, Frame.headers hs ∈ m.frames → (∀ hd ∈ hs, hd.name ≠ clChars) →
        m.frames = [Frame.headers hs]) ∧
    Message.parse "GET / HTTP/1.1\r\n\r\n".toList
      = .ok (.request .get "/".toList ⟨1, 1⟩ [.headers []]) := by
  constructor
  · intro s m h hs hmem hno
    obtain ⟨mth, tgt, ver, hs2, hcase⟩ := parse_ok_shape h
    rcases hcase with ⟨rfl, hf⟩ | ⟨hd, L, hf, hu, rfl⟩
    · simp only [Message.frames] at hmem ⊢
      simp only [List.mem_singleton, Frame.headers.injEq] at hmem
      rw [hmem]
    · simp only [Message.frames] at hmem ⊢
      simp only [List.mem_cons, List.not_mem_nil, or_false] at hmem
      rcases hmem with hmem | hmem
      · rw [Frame.headers.injEq] at hmem
        subst hmem
        have h1 := List.mem_of_find?_eq_some hf
        have h2 := List.find?_some hf
        simp only [decide_eq_true_eq] at h2
        exact absurd h2 (hno hd h1)
      · exact absurd hmem (by simp)
  · decide

theorem c7_no_content_length_frames_witness :
    Message.parse "GET / HTTP/1.1\r\nHost: x\r\n\r\n".toList
        = .ok (.request .get "/".toList ⟨1, 1⟩
            [.headers [⟨"Host".toList, "x".toList⟩]]) ∧
    (Message.request .get "/".toList ⟨1, 1⟩
        [.headers [⟨"Host".toList, "x".toList⟩]]).frames
      = [Frame.headers [⟨"Host".toList, "x".toList⟩]] :=
  ⟨by decide, c7_no_content_length_frames.1 "GET / HTTP/1.1\r\nHost: x\r\n\r\n".toList
    (.request .get "/".toList ⟨1, 1⟩ [.headers [⟨"Host".toList, "x".toList⟩]])
    (by decide) [⟨"Host".toList, "x".toList⟩] (by decide) (by decide)⟩

lemma c8_input1_eq (v body : List Char) :
    "GET / HTTP/1.1\r\nContent-Length: ".toList ++ v
        ++ '\r' :: '\n' :: ("Content-Length: 7\r\n\r\n".toList ++ body)
      = mkInput .get "/".toList 1 1 [⟨clChars, v⟩, ⟨clChars, "7".toList⟩] body := by
  rw [mkInput, show statusCore .get "/".toList 1 1 = "GET / HTTP/1.1".toList from by decide,
    show "GET / HTTP/1.1\r\nContent-Length: ".toList
      = "GET / HTTP/1.1".toList ++ '\r' :: '\n' :: (clChars ++ [':', ' ']) from by decide,
    show "Content-Length: 7\r\n\r\n".toList
      = (clChars ++ ':' :: ' ' :: ("7".toList ++ ['\r', '\n'])) ++ ['\r', '\n'] from by decide]
  simp [headersBlock, headerLineText, List.append_assoc]

lemma c8_input2_eq (body : List Char) :
    "GET / HTTP/1.1\r\ncontent-length: 7\r\n\r\n".toList ++ body
      = mkInput .get "/".toList 1 1 [⟨"content-length".toList, "7".toList⟩] body := rfl

/-- C8: body length comes from the first header named exactly (and
case-sensitively) `Content-Length`: with two such headers only the first
is honored; a header named `content-length` is ignored entirely (no Data
frame despite a body being present); and an unparseable `Content-Length`
value makes the whole parse `Malformed`. -/
theorem c8_content_length_policy (v : List Char) (L : Nat) (body : List Char)
    (hv : parseUsize v = some L) (hwf : wfValue v) :
    (Message.parse ("GET / HTTP/1.1\r\nContent-Length: ".toList ++ v
        ++ '\r' :: '\n' :: ("Content-Length: 7\r\n\r\n".toList ++ body))
      = .ok (.request .get "/".toList ⟨1, 1⟩
          [.headers [⟨clChars, v⟩, ⟨clChars, "7".toList⟩],
            .data ((stripTerms body).take L)])) ∧
    (Message.parse ("GET / HTTP/1.1\r\ncontent-length: 7\r\n\r\n".toList ++ body)
      = .ok (.request .get "/".toList ⟨1, 1⟩
          [.headers [⟨"content-length".toList, "7".toList⟩]])) ∧
    Message.parse "GET / HTTP/1.1\r\nContent-Length: abc\r\n\r\nXYZ".toList
      = PResult.fail := by
  refine ⟨?_, ?_, by decide⟩
  · rw [c8_input1_eq v body,
      parse_mkInput .get "/".toList 1 1 [⟨clChars, v⟩, ⟨clChars, "7".toList⟩] body
        (by decide) (by decide) (by decide)
        (by
          intro h hm
          simp only [List.mem_cons, List.not_mem_nil, or_false] at hm
          rcases hm with rfl | rfl
          · exact ⟨show wfName clChars by decide, hwf⟩
          · exact ⟨show wfName clChars by decide, show wfValue "7".toList by decide⟩)]
    have hf : ([⟨clChars, v⟩, ⟨clChars, "7".toList⟩] : List Header).find?
        (fun h => decide (h.name = clChars)) = some ⟨clChars, v⟩ :=
      List.find?_cons_of_pos _ (by simp)
    simp only [hf, hv]
  · rw [c8_input2_eq body,
      parse_mkInput .get "/".toList 1 1 [⟨"content-length".toList, "7".toList⟩] body
        (by decide) (by decide) (by decide) (by decide)]
    have hf2 : ([⟨"content-length".toList, "7".toList⟩] : List Header).find?
        (fun h => decide (h.name = clChars)) = none := by decide
    simp only [hf2]

theorem c8_content_length_policy_witness :
    Message.parse
        "GET / HTTP/1.1\r\nContent-Length: 2\r\nContent-Length: 7\r\n\r\nABCDEFGH".toList
      = .ok (.request .get "/".toList ⟨1, 1⟩
          [.headers [⟨"Content-Length".toList, "2".toList⟩,
            ⟨"Content-Length".toList, "7".toList⟩], .data "AB".toList]) := by
  have h := (c8_content_length_policy "2".toList 2 "ABCDEFGH".toList (by decide) (by decide)).1
  rw [show ("GET / HTTP/1.1\r\nContent-Length: ".toList ++ "2".toList
        ++ '\r' :: '\n' :: ("Content-Length: 7\r\n\r\n".toList ++ "ABCDEFGH".toList))
      = "GET / HTTP/1.1\r\nContent-Length: 2\r\nContent-Length: 7\r\n\r\nABCDEFGH".toList
      from by decide,
    show ((stripTerms "ABCDEFGH".toList).take 2) = "AB".toList from by decide] at h
  exact h
